import Mathlib

/-!
Verification of the `BVecInterp` distributed transfer operator of the TACS
repository (`src/bpmat/BVecInterp.h`).

The repository ships only the interface header for `BVecInterp`; the body of
the class (its `.cpp` file) is not part of the sources.  The definitions below
therefore model the operator from the specification of the transfer operator:
accumulation of weighted edges (`addInterp`), one-time compilation
(`finalize`) that splits the edges into an on-process and an off-process
compressed-row block and registers the distinct off-process global indices
with the distributor, and the four multiply variants (`mult`, `multAdd`,
`multTranspose`, `multTransposeAdd`).

`TacsScalar` values are modelled as exact rationals.  A distributed vector is
modelled as the concatenation of all processes' local slices, i.e. a plain
list addressed by flattened global index `g * bsize + k`; the gather step of
the distributor reads the off-process entries of that list, which is exactly
what the MPI exchange delivers into the local receive buffer.
-/

/-- Scalar type of the model: `TacsScalar` values as exact rationals. -/
abbrev Scalar := ℚ

/-- One accumulated interpolation edge: global output row `row`, global input
index `g`, weight `w`. -/
structure Edge where
  row : Nat
  g : Nat
  w : Scalar
deriving DecidableEq

/-- Modelled from the spec: the per-process view of the input and output
`VarMap`s and the block size that a `BVecInterp` object is constructed with
(the header stores `inMap`, `outMap`, `bsize`, `inOwnerRange`,
`outOwnerRange`).  `inStart ≤ g < inEnd` is the locally owned input range,
`outStart ≤ r < outEnd` the locally owned output range, and `inGlobal`,
`outGlobal` are the sizes of the two global index spaces. -/
structure Ctx where
  inStart : Nat
  inEnd : Nat
  outStart : Nat
  outEnd : Nat
  inGlobal : Nat
  outGlobal : Nat
  bsize : Nat
deriving DecidableEq

/-- The number of locally owned output rows (`N` in the header). -/
def Ctx.N (p : Ctx) : Nat := p.outEnd - p.outStart

/-- Whether global input index `g` is owned by this process. -/
def Ctx.localIn (p : Ctx) (g : Nat) : Bool :=
  decide (p.inStart ≤ g) && decide (g < p.inEnd)

/-- Well-formedness of the per-process map view: the local ranges are genuine
sub-ranges of the global index spaces and the block size is positive. -/
def CtxValid (p : Ctx) : Prop :=
  p.inStart ≤ p.inEnd ∧ p.inEnd ≤ p.inGlobal ∧ p.outStart ≤ p.outEnd ∧
    p.outEnd ≤ p.outGlobal ∧ 0 < p.bsize

instance (p : Ctx) : Decidable (CtxValid p) := by
  unfold CtxValid; infer_instance

/-- Validity of the accumulated edges: every output row lies in the local
output ownership range and every input index lies in the global input range
(the preconditions `finalize` checks). -/
def EdgesValid (p : Ctx) (es : List Edge) : Prop :=
  ∀ e ∈ es, p.outStart ≤ e.row ∧ e.row < p.outEnd ∧ e.g < p.inGlobal

instance (p : Ctx) (es : List Edge) : Decidable (EdgesValid p es) :=
  List.decidableBAll _ es

/-- Modelled from the spec: `BVecInterp::addInterp(vNum, weights, inNums,
size)` appends one output row's worth of weighted references to the growable
edge storage (`on_nums`/`off_nums` etc. in the header). -/
def addInterp (es : List Edge) (vNum : Nat) (weights : List Scalar)
    (inNums : List Nat) : List Edge :=
  es ++ (inNums.zip weights).map (fun q => ⟨vNum, q.1, q.2⟩)

/-- Insert a number into a sorted list, keeping it sorted. -/
def insertSorted (x : Nat) : List Nat → List Nat
  | [] => [x]
  | y :: ys => if x ≤ y then x :: y :: ys else y :: insertSorted x ys

/-- Insertion sort, used by the model of `finalize` to sort the distinct
off-process global indices. -/
def sortNat (l : List Nat) : List Nat := l.foldr insertSorted []

/-- Remove duplicates from a list of numbers (keeping the last occurrence of
each). -/
def dedupNat : List Nat → List Nat
  | [] => []
  | x :: xs => if x ∈ xs then dedupNat xs else x :: dedupNat xs

/-- Position of the first occurrence of `g` in a list (the receive-buffer
offset assigned to an off-process global index). -/
def idxIn (g : Nat) : List Nat → Nat
  | [] => 0
  | x :: xs => if x = g then 0 else idxIn g xs + 1

/-- Modelled from the spec: the distinct off-process global input indices
referenced by the accumulated edges, deduplicated and sorted; `finalize`
registers these with the distributor (`BVecDistribute`) to obtain the
receive-buffer layout. -/
def offGlobals (p : Ctx) (es : List Edge) : List Nat :=
  sortNat (dedupNat ((es.filter (fun e => !p.localIn e.g)).map Edge.g))

/-- The on-process compressed row for local output row `r`: pairs of local
input offset (`cols` in the header) and weight. -/
def onRow (p : Ctx) (es : List Edge) (r : Nat) : List (Nat × Scalar) :=
  (es.filter (fun e => decide (e.row = p.outStart + r) && p.localIn e.g)).map
    (fun e => (e.g - p.inStart, e.w))

/-- The off-process compressed row for local output row `r`: pairs of
receive-buffer offset (`ext_cols` in the header) and weight. -/
def offRow (p : Ctx) (es : List Edge) (r : Nat) : List (Nat × Scalar) :=
  (es.filter (fun e => decide (e.row = p.outStart + r) && !p.localIn e.g)).map
    (fun e => (idxIn e.g (offGlobals p es), e.w))

/-- The compiled form of the operator: the on- and off-process compressed-row
blocks (`rowp`/`cols`/`weights` and `ext_rowp`/`ext_cols`/`ext_weights` in the
header, held here as one list of (column, weight) pairs per local output row)
together with the sorted distinct off-process indices registered with the
distributor.  No global indices remain in the compiled form. -/
structure BVecInterp where
  N : Nat
  bsize : Nat
  inStart : Nat
  inEnd : Nat
  outStart : Nat
  inGlobal : Nat
  onRows : List (List (Nat × Scalar))
  offRows : List (List (Nat × Scalar))
  extIndices : List Nat
deriving DecidableEq

/-- Modelled from the spec: the structure-building part of
`BVecInterp::finalize` — partition the accumulated edges by input locality,
build compressed-row form for both partitions with rows sorted ascending by
output row, and rewrite off-process column references as receive-buffer
offsets. -/
def compile (p : Ctx) (es : List Edge) : BVecInterp :=
  { N := p.N, bsize := p.bsize, inStart := p.inStart, inEnd := p.inEnd,
    outStart := p.outStart, inGlobal := p.inGlobal,
    onRows := (List.range p.N).map (onRow p es),
    offRows := (List.range p.N).map (offRow p es),
    extIndices := offGlobals p es }

/-- The multiply-accumulate kernel for one compressed row and one block
component: `Σ weight_k × x[col_k · bsize + k]`. -/
def rowSum (bsize : Nat) (row : List (Nat × Scalar)) (x : List Scalar)
    (k : Nat) : Scalar :=
  (row.map (fun cw => cw.2 * x.getD (cw.1 * bsize + k) 0)).sum

/-- Modelled from the spec: the distributor's gather — pull the values at the
registered off-process global indices out of the distributed input vector
into the local receive buffer (`x_ext` in the header), one block per
registered index. -/
def gatherExt (bsize : Nat) (xin : List Scalar) : List Nat → List Scalar
  | [] => []
  | g :: gs =>
    (List.range bsize).map (fun k => xin.getD (g * bsize + k) 0) ++
      gatherExt bsize xin gs

/-- The locally owned slice of the distributed input vector: the borrowed
`BVec` buffer this process passes to `mult`. -/
def BVecInterp.localSlice (c : BVecInterp) (xin : List Scalar) : List Scalar :=
  (xin.drop (c.inStart * c.bsize)).take ((c.inEnd - c.inStart) * c.bsize)

/-- The receive buffer populated by the distributor for this operator. -/
def BVecInterp.xExt (c : BVecInterp) (xin : List Scalar) : List Scalar :=
  gatherExt c.bsize xin c.extIndices

/-- Modelled from the spec: `BVecInterp::multAdd` — gather the remote values,
then for each local output row and block component accumulate the on- and
off-process contributions on top of the baseline `z`. -/
def BVecInterp.multAdd (c : BVecInterp) (xin z : List Scalar) : List Scalar :=
  (List.range (c.N * c.bsize)).map (fun i =>
    z.getD i 0 +
      rowSum c.bsize (c.onRows.getD (i / c.bsize) []) (c.localSlice xin)
        (i % c.bsize) +
      rowSum c.bsize (c.offRows.getD (i / c.bsize) []) (c.xExt xin)
        (i % c.bsize))

/-- Modelled from the spec: `BVecInterp::mult` — `out := A·x`, fully
replacing all `N · bsize` entries of the local output buffer. -/
def BVecInterp.mult (c : BVecInterp) (xin : List Scalar) : List Scalar :=
  (List.range (c.N * c.bsize)).map (fun i =>
    rowSum c.bsize (c.onRows.getD (i / c.bsize) []) (c.localSlice xin)
      (i % c.bsize) +
      rowSum c.bsize (c.offRows.getD (i / c.bsize) []) (c.xExt xin)
        (i % c.bsize))

/-- The transpose-scatter kernel: the total contribution of all local rows of
`vin` to flattened target offset `j` (`j / bsize` is the column, `j % bsize`
the block component). -/
def transSum (bsize : Nat) (rows : List (List (Nat × Scalar)))
    (vin : List Scalar) (j : Nat) : Scalar :=
  ((List.range rows.length).map (fun r =>
    (((rows.getD r []).filter (fun cw => decide (cw.1 = j / bsize))).map
      (fun cw => cw.2 * vin.getD (r * bsize + j % bsize) 0)).sum)).sum

/-- Modelled from the spec: the locally accumulated part of
`BVecInterp::multTranspose` — contributions of the local rows of `vin` to the
locally owned input indices, accumulated directly into the local output
buffer. -/
def BVecInterp.multTranspose (c : BVecInterp) (vin : List Scalar) :
    List Scalar :=
  (List.range ((c.inEnd - c.inStart) * c.bsize)).map
    (fun j => transSum c.bsize c.onRows vin j)

/-- Modelled from the spec: `BVecInterp::multTransposeAdd` — the locally
accumulated part of the transpose product on top of the baseline `z`. -/
def BVecInterp.multTransposeAdd (c : BVecInterp) (vin z : List Scalar) :
    List Scalar :=
  (List.range ((c.inEnd - c.inStart) * c.bsize)).map
    (fun j => z.getD j 0 + transSum c.bsize c.onRows vin j)

/-- Modelled from the spec: the per-receive-buffer-slot contributions that
`multTranspose` hands to the distributor's scatter-add path, one block per
registered off-process index. -/
def BVecInterp.extContrib (c : BVecInterp) (vin : List Scalar) : List Scalar :=
  (List.range (c.extIndices.length * c.bsize)).map
    (fun j => transSum c.bsize c.offRows vin j)

/-- The assembled global transpose product of this operator: at a locally
owned input index the directly accumulated local part, at an off-process
index the contribution delivered by the distributor's scatter-add, and zero
elsewhere. -/
def BVecInterp.transGlobal (c : BVecInterp) (vin : List Scalar) (g k : Nat) :
    Scalar :=
  (if c.inStart ≤ g ∧ g < c.inEnd then
    (c.multTranspose vin).getD ((g - c.inStart) * c.bsize + k) 0
  else 0) +
  (if g ∈ c.extIndices then
    (c.extContrib vin).getD (idxIn g c.extIndices * c.bsize + k) 0
  else 0)

/-- Dot product of the first `n` flattened entries of two vectors. -/
def dotN (n : Nat) (u v : List Scalar) : Scalar :=
  ((List.range n).map (fun i => u.getD i 0 * v.getD i 0)).sum

/-- Dot product of a distributed input vector `u` with the assembled global
transpose product `Aᵗ·v` of this operator. -/
def BVecInterp.dotWithTrans (c : BVecInterp) (u v : List Scalar) : Scalar :=
  ((List.range (c.inGlobal * c.bsize)).map (fun i =>
    u.getD i 0 * c.transGlobal v (i / c.bsize) (i % c.bsize))).sum

/-! ## Generic list lemmas used by the correctness proofs -/

lemma listSum_zero {α : Type} (l : List α) :
    (l.map (fun _ => (0 : Scalar))).sum = 0 := by
  induction l with
  | nil => simp
  | cons a l ih => simp [ih]

lemma listSum_map_add {α : Type} (l : List α) (f g : α → Scalar) :
    (l.map (fun a => f a + g a)).sum = (l.map f).sum + (l.map g).sum := by
  induction l with
  | nil => simp
  | cons a l ih => simp only [List.map_cons, List.sum_cons, ih]; ring

lemma listSum_map_mul_left {α : Type} (l : List α) (f : α → Scalar)
    (c : Scalar) : c * (l.map f).sum = (l.map (fun a => c * f a)).sum := by
  induction l with
  | nil => simp
  | cons a l ih => simp only [List.map_cons, List.sum_cons, ← ih]; ring

lemma listSum_map_mul_right {α : Type} (l : List α) (f : α → Scalar)
    (c : Scalar) : (l.map f).sum * c = (l.map (fun a => f a * c)).sum := by
  induction l with
  | nil => simp
  | cons a l ih => simp only [List.map_cons, List.sum_cons, ← ih]; ring

lemma filter_split {α : Type} (l : List α) (q s : α → Bool) (f : α → Scalar) :
    ((l.filter q).map f).sum =
      ((l.filter (fun a => q a && s a)).map f).sum +
        ((l.filter (fun a => q a && !s a)).map f).sum := by
  induction l with
  | nil => simp
  | cons a l ih =>
    cases hq : q a <;> cases hs : s a <;>
      simp [List.filter_cons, hq, hs, ih] <;> ring

lemma map_filter_comm {α β : Type} (l : List α) (h : α → β) (q : β → Bool) :
    (l.map h).filter q = (l.filter (fun a => q (h a))).map h := by
  induction l with
  | nil => simp
  | cons a l ih =>
    cases hq : q (h a) <;> simp [List.filter_cons, hq, ih]

lemma listSum_range_ite (v : Scalar) (j N : Nat) (h : j < N) :
    ((List.range N).map (fun r => if j = r then v else 0)).sum = v := by
  induction N with
  | zero => omega
  | succ N ih =>
    rw [List.range_succ, List.map_append, List.sum_append]
    by_cases hj : j = N
    · subst hj
      have hz : ((List.range j).map (fun r => if j = r then v else 0)).sum
          = 0 := by
        apply List.sum_eq_zero
        intro x hx
        rcases List.mem_map.mp hx with ⟨r, hr, hrx⟩
        have : r < j := List.mem_range.mp hr
        simp only [← hrx]
        rw [if_neg (by omega)]
      simp [hz]
    · have hlt : j < N := by omega
      rw [ih hlt]
      simp [hj]

lemma sum_partition_range {α : Type} (l : List α) (f : α → Scalar)
    (key : α → Nat) (N : Nat) (h : ∀ a ∈ l, key a < N) :
    ((List.range N).map (fun r =>
      ((l.filter (fun a => decide (key a = r))).map f).sum)).sum =
      (l.map f).sum := by
  induction l with
  | nil =>
    simp only [List.filter_nil, List.map_nil, List.sum_nil]
    exact listSum_zero _
  | cons a l ih =>
    have ha : key a < N := h a (by simp)
    have hrest : ∀ b ∈ l, key b < N := fun b hb => h b (by simp [hb])
    have hcongr : ((List.range N).map (fun r =>
        (((a :: l).filter (fun x => decide (key x = r))).map f).sum)).sum =
        ((List.range N).map (fun r =>
          (if key a = r then f a else 0) +
            ((l.filter (fun x => decide (key x = r))).map f).sum)).sum := by
      congr 1
      apply List.map_congr_left
      intro r _
      by_cases hk : key a = r <;> simp [List.filter_cons, hk]
    rw [hcongr, listSum_map_add, listSum_range_ite (f a) (key a) N ha, ih hrest]
    simp

lemma listSum_comm {α β : Type} (l1 : List α) (l2 : List β)
    (f : α → β → Scalar) :
    (l1.map (fun a => (l2.map (f a)).sum)).sum =
      (l2.map (fun b => (l1.map (fun a => f a b)).sum)).sum := by
  induction l1 with
  | nil =>
    simp only [List.map_nil, List.sum_nil]
    exact (listSum_zero _).symm
  | cons a l1 ih =>
    simp only [List.map_cons, List.sum_cons, ih, ← listSum_map_add]

lemma sum_range_mulIdx (m n : Nat) (f : Nat → Scalar) :
    ((List.range (m * n)).map f).sum =
      ((List.range m).map (fun r =>
        ((List.range n).map (fun k => f (r * n + k))).sum)).sum := by
  induction m with
  | zero => simp
  | succ m ih =>
    rw [Nat.succ_mul, List.range_add, List.map_append, List.sum_append, ih,
      List.range_succ, List.map_append, List.sum_append]
    congr 1
    simp [Function.comp_def]

lemma getD_range_map {α : Type} (f : Nat → α) (d : α) {n i : Nat}
    (h : i < n) : ((List.range n).map f).getD i d = f i := by
  rw [List.getD_eq_getElem _ _ (by simpa using h)]
  simp

lemma getD_drop (l : List Scalar) (a j : Nat) :
    (l.drop a).getD j 0 = l.getD (a + j) 0 := by
  simp [List.getD_eq_getElem?_getD, List.getElem?_drop]

lemma getD_take (l : List Scalar) {m j : Nat} (h : j < m) :
    (l.take m).getD j 0 = l.getD j 0 := by
  simp [List.getD_eq_getElem?_getD, List.getElem?_take, h]

/-! ## Receive-buffer bookkeeping lemmas -/

lemma idxIn_lt_length {g : Nat} {l : List Nat} (h : g ∈ l) :
    idxIn g l < l.length := by
  induction l with
  | nil => simp at h
  | cons x xs ih =>
    by_cases hx : x = g
    · simp [idxIn, hx]
    · have hg : g ∈ xs := by
        rcases List.mem_cons.mp h with h1 | h1
        · exact absurd h1.symm hx
        · exact h1
      simp only [idxIn, if_neg hx, List.length_cons]
      have := ih hg
      omega

lemma getD_idxIn {g : Nat} {l : List Nat} (h : g ∈ l) :
    l.getD (idxIn g l) 0 = g := by
  induction l with
  | nil => simp at h
  | cons x xs ih =>
    by_cases hx : x = g
    · simp [idxIn, hx]
    · have hg : g ∈ xs := by
        rcases List.mem_cons.mp h with h1 | h1
        · exact absurd h1.symm hx
        · exact h1
      simp only [idxIn, if_neg hx, List.getD_cons_succ]
      exact ih hg

lemma mem_dedupNat {a : Nat} : ∀ {l : List Nat}, a ∈ dedupNat l ↔ a ∈ l := by
  intro l
  induction l with
  | nil => simp [dedupNat]
  | cons x xs ih =>
    by_cases hx : x ∈ xs
    · rw [dedupNat, if_pos hx, ih, List.mem_cons]
      constructor
      · exact Or.inr
      · rintro (rfl | h)
        · exact hx
        · exact h
    · rw [dedupNat, if_neg hx, List.mem_cons, List.mem_cons, ih]

lemma nodup_dedupNat : ∀ (l : List Nat), (dedupNat l).Nodup := by
  intro l
  induction l with
  | nil => simp [dedupNat]
  | cons x xs ih =>
    by_cases hx : x ∈ xs
    · rw [dedupNat, if_pos hx]; exact ih
    · rw [dedupNat, if_neg hx]
      exact List.Nodup.cons (fun hmem => hx (mem_dedupNat.mp hmem)) ih

lemma insertSorted_perm (x : Nat) (l : List Nat) :
    (insertSorted x l).Perm (x :: l) := by
  induction l with
  | nil => simp [insertSorted]
  | cons y ys ih =>
    rw [insertSorted]
    by_cases hxy : x ≤ y
    · rw [if_pos hxy]
    · rw [if_neg hxy]
      exact (ih.cons y).trans (List.Perm.swap x y ys)

lemma sortNat_perm (l : List Nat) : (sortNat l).Perm l := by
  induction l with
  | nil => simp [sortNat]
  | cons x xs ih =>
    have : sortNat (x :: xs) = insertSorted x (sortNat xs) := rfl
    rw [this]
    exact (insertSorted_perm x (sortNat xs)).trans (ih.cons x)

lemma mem_offGlobals {p : Ctx} {es : List Edge} {g : Nat} :
    g ∈ offGlobals p es ↔ ∃ e ∈ es, e.g = g ∧ p.localIn e.g = false := by
  unfold offGlobals
  rw [(sortNat_perm _).mem_iff, mem_dedupNat, List.mem_map]
  constructor
  · rintro ⟨e, he, rfl⟩
    rcases List.mem_filter.mp he with ⟨hes, hloc⟩
    exact ⟨e, hes, rfl, by simpa using hloc⟩
  · rintro ⟨e, hes, rfl, hloc⟩
    exact ⟨e, List.mem_filter.mpr ⟨hes, by simpa using hloc⟩, rfl⟩

lemma offGlobals_not_local {p : Ctx} {es : List Edge} {g : Nat}
    (h : g ∈ offGlobals p es) : p.localIn g = false := by
  rcases mem_offGlobals.mp h with ⟨e, _, rfl, hloc⟩
  exact hloc

lemma nodup_offGlobals (p : Ctx) (es : List Edge) : (offGlobals p es).Nodup :=
  (sortNat_perm _).nodup_iff.mpr (nodup_dedupNat _)

lemma mul_index_lt {a b B k : Nat} (hab : a < b) (hk : k < B) :
    a * B + k < b * B := by
  calc a * B + k < a * B + B := by omega
  _ = (a + 1) * B := (Nat.succ_mul a B).symm
  _ ≤ b * B := Nat.mul_le_mul (by omega) (le_refl B)

lemma gatherExt_getD (bsize : Nat) (xin : List Scalar) :
    ∀ (gs : List Nat) (i k : Nat), i < gs.length → k < bsize →
      (gatherExt bsize xin gs).getD (i * bsize + k) 0 =
        xin.getD (gs.getD i 0 * bsize + k) 0 := by
  intro gs
  induction gs with
  | nil => intro i k hi _; simp at hi
  | cons g gs ih =>
    intro i k hi hk
    cases i with
    | zero =>
      rw [gatherExt]
      simp only [Nat.zero_mul, Nat.zero_add]
      rw [List.getD_append _ _ _ _ (by simpa using hk)]
      rw [getD_range_map _ _ hk]
      simp
    | succ i =>
      rw [gatherExt]
      have hlen : ((List.range bsize).map
          (fun k => xin.getD (g * bsize + k) 0)).length = bsize := by simp
      have hmul : (i + 1) * bsize = i * bsize + bsize := Nat.succ_mul i bsize
      rw [List.getD_append_right _ _ _ _ (by omega)]
      rw [hlen]
      have hpos : (i + 1) * bsize + k - bsize = i * bsize + k := by omega
      rw [hpos]
      rw [ih i k (by simpa using hi) hk]
      simp

lemma localSlice_getD (c : BVecInterp) (xin : List Scalar) {j : Nat}
    (h : j < (c.inEnd - c.inStart) * c.bsize) :
    (c.localSlice xin).getD j 0 = xin.getD (c.inStart * c.bsize + j) 0 := by
  unfold BVecInterp.localSlice
  rw [getD_take _ h, getD_drop]

/-! ## Forward apply: the compiled operator computes the edge-sum `A·x` -/

/-- Row `(r, k)` of the mathematical product `A·x` as the spec states it:
the sum over the accumulated edges of output row `outStart + r` of
`weight × x[g · bsize + k]`, taken directly over the edge multiset. -/
def matVecRow (outStart bsize : Nat) (es : List Edge) (xin : List Scalar)
    (r k : Nat) : Scalar :=
  ((es.filter (fun e => decide (e.row = outStart + r))).map
    (fun e => e.w * xin.getD (e.g * bsize + k) 0)).sum

lemma mult_length (c : BVecInterp) (xin : List Scalar) :
    (c.mult xin).length = c.N * c.bsize := by
  simp [BVecInterp.mult]

lemma multAdd_length (c : BVecInterp) (xin z : List Scalar) :
    (c.multAdd xin z).length = c.N * c.bsize := by
  simp [BVecInterp.multAdd]

lemma multAdd_getD (c : BVecInterp) (xin z : List Scalar) {i : Nat}
    (hi : i < c.N * c.bsize) :
    (c.multAdd xin z).getD i 0 = z.getD i 0 + (c.mult xin).getD i 0 := by
  unfold BVecInterp.multAdd BVecInterp.mult
  rw [getD_range_map _ _ hi, getD_range_map _ _ hi]
  ring

lemma getD_replicate_zero (n i : Nat) :
    (List.replicate n (0 : Scalar)).getD i 0 = 0 := by
  rw [List.getD_eq_getElem?_getD, List.getElem?_replicate]
  split <;> rfl

lemma onRow_rowSum (p : Ctx) (es : List Edge) (c : BVecInterp)
    (hc : c = compile p es) (xin : List Scalar) (r k : Nat)
    (hk : k < p.bsize) :
    rowSum p.bsize (onRow p es r) (c.localSlice xin) k =
      ((es.filter (fun e => decide (e.row = p.outStart + r) && p.localIn e.g)).map
        (fun e => e.w * xin.getD (e.g * p.bsize + k) 0)).sum := by
  subst hc
  unfold rowSum onRow
  rw [List.map_map]
  congr 1
  apply List.map_congr_left
  intro e he
  rcases List.mem_filter.mp he with ⟨_, hpred⟩
  have hloc : p.localIn e.g = true := by
    simp only [Bool.and_eq_true] at hpred
    exact hpred.2
  have hrange : p.inStart ≤ e.g ∧ e.g < p.inEnd := by
    unfold Ctx.localIn at hloc
    simp only [Bool.and_eq_true, decide_eq_true_eq] at hloc
    exact hloc
  simp only [Function.comp_apply]
  have hlt : (e.g - p.inStart) * p.bsize + k <
      ((compile p es).inEnd - (compile p es).inStart) * (compile p es).bsize := by
    simp only [compile]
    exact mul_index_lt (by omega) hk
  rw [localSlice_getD _ _ hlt]
  simp only [compile]
  have harith : p.inStart * p.bsize + ((e.g - p.inStart) * p.bsize + k) =
      e.g * p.bsize + k := by
    rw [← Nat.add_assoc, ← Nat.add_mul, Nat.add_sub_cancel' hrange.1]
  rw [harith]

lemma offRow_rowSum (p : Ctx) (es : List Edge) (c : BVecInterp)
    (hc : c = compile p es) (xin : List Scalar) (r k : Nat)
    (hk : k < p.bsize) :
    rowSum p.bsize (offRow p es r) (c.xExt xin) k =
      ((es.filter (fun e => decide (e.row = p.outStart + r) && !p.localIn e.g)).map
        (fun e => e.w * xin.getD (e.g * p.bsize + k) 0)).sum := by
  subst hc
  unfold rowSum offRow
  rw [List.map_map]
  congr 1
  apply List.map_congr_left
  intro e he
  rcases List.mem_filter.mp he with ⟨hes, hpred⟩
  have hloc : p.localIn e.g = false := by
    simp only [Bool.and_eq_true] at hpred
    simpa using hpred.2
  have hmem : e.g ∈ offGlobals p es :=
    mem_offGlobals.mpr ⟨e, hes, rfl, hloc⟩
  simp only [Function.comp_apply]
  unfold BVecInterp.xExt
  simp only [compile]
  rw [gatherExt_getD p.bsize xin (offGlobals p es) _ k
    (idxIn_lt_length hmem) hk]
  rw [getD_idxIn hmem]

/-- Pointwise value of the compiled forward apply: entry `r · bsize + k` of
`mult` is exactly row `(r, k)` of the mathematical product `A·x`. -/
lemma mult_getD_eq (p : Ctx) (es : List Edge) (xin : List Scalar)
    {r k : Nat} (hr : r < p.N) (hk : k < p.bsize) :
    ((compile p es).mult xin).getD (r * p.bsize + k) 0 =
      matVecRow p.outStart p.bsize es xin r k := by
  have hb : 0 < p.bsize := by omega
  have hi : r * p.bsize + k < p.N * p.bsize := mul_index_lt hr hk
  unfold BVecInterp.mult
  have hN : (compile p es).N = p.N := rfl
  have hbs : (compile p es).bsize = p.bsize := rfl
  rw [hN, hbs, getD_range_map _ _ hi]
  have hdiv : (r * p.bsize + k) / p.bsize = r := by
    rw [Nat.mul_comm, Nat.mul_add_div hb, Nat.div_eq_of_lt hk, Nat.add_zero]
  have hmod : (r * p.bsize + k) % p.bsize = k := by
    rw [Nat.mul_comm, Nat.mul_add_mod, Nat.mod_eq_of_lt hk]
  rw [hdiv, hmod]
  have hon : (compile p es).onRows.getD r [] = onRow p es r := by
    simp only [compile]
    exact getD_range_map _ _ hr
  have hoff : (compile p es).offRows.getD r [] = offRow p es r := by
    simp only [compile]
    exact getD_range_map _ _ hr
  rw [hon, hoff]
  rw [onRow_rowSum p es _ rfl xin r k hk, offRow_rowSum p es _ rfl xin r k hk]
  unfold matVecRow
  exact (filter_split es (fun e => decide (e.row = p.outStart + r))
    (fun e => p.localIn e.g)
    (fun e => e.w * xin.getD (e.g * p.bsize + k) 0)).symm

/-! ## Transpose apply: the compiled operator computes the edge-sum of the
adjoint -/

/-- Entry `(g, k)` of the mathematical transpose product `Aᵗ·v` as the spec
states it: the sum over the accumulated edges with input global index `g` of
`weight × v[(row - outStart) · bsize + k]`. -/
def matTransRow (outStart bsize : Nat) (es : List Edge) (vin : List Scalar)
    (g k : Nat) : Scalar :=
  ((es.filter (fun e => decide (e.g = g))).map
    (fun e => e.w * vin.getD ((e.row - outStart) * bsize + k) 0)).sum

lemma transSum_compiledRows (bsize N : Nat) (rowFn : Nat → List (Nat × Scalar))
    (vin : List Scalar) (col k : Nat) (hk : k < bsize) :
    transSum bsize ((List.range N).map rowFn) vin (col * bsize + k) =
      ((List.range N).map (fun r =>
        (((rowFn r).filter (fun cw => decide (cw.1 = col))).map
          (fun cw => cw.2 * vin.getD (r * bsize + k) 0)).sum)).sum := by
  have hb : 0 < bsize := by omega
  have hdiv : (col * bsize + k) / bsize = col := by
    rw [Nat.mul_comm, Nat.mul_add_div hb, Nat.div_eq_of_lt hk, Nat.add_zero]
  have hmod : (col * bsize + k) % bsize = k := by
    rw [Nat.mul_comm, Nat.mul_add_mod, Nat.mod_eq_of_lt hk]
  unfold transSum
  rw [List.length_map, List.length_range, hdiv, hmod]
  congr 1
  apply List.map_congr_left
  intro r hr
  rw [getD_range_map _ _ (List.mem_range.mp hr)]

lemma onRow_colFilter (p : Ctx) (es : List Edge) {g : Nat}
    (hg1 : p.inStart ≤ g) (hg2 : g < p.inEnd) (r : Nat) (V : Scalar) :
    (((onRow p es r).filter
        (fun cw => decide (cw.1 = g - p.inStart))).map
      (fun cw => cw.2 * V)).sum =
      ((es.filter (fun e =>
          decide (e.row = p.outStart + r) && decide (e.g = g))).map
        (fun e => e.w * V)).sum := by
  unfold onRow
  rw [map_filter_comm, List.map_map, List.filter_filter]
  show (List.map (fun e => e.w * V)
      (List.filter (fun e => decide (e.g - p.inStart = g - p.inStart) &&
        (decide (e.row = p.outStart + r) && p.localIn e.g)) es)).sum = _
  have hpred : ∀ e ∈ es,
      (decide (e.g - p.inStart = g - p.inStart) &&
        (decide (e.row = p.outStart + r) && p.localIn e.g)) =
      (decide (e.row = p.outStart + r) && decide (e.g = g)) := by
    intro e _
    rw [Bool.eq_iff_iff]
    simp only [Bool.and_eq_true, decide_eq_true_eq, Ctx.localIn]
    omega
  rw [List.filter_congr hpred]

lemma offRow_colFilter (p : Ctx) (es : List Edge) {g : Nat}
    (hmem : g ∈ offGlobals p es) (r : Nat) (V : Scalar) :
    (((offRow p es r).filter
        (fun cw => decide (cw.1 = idxIn g (offGlobals p es)))).map
      (fun cw => cw.2 * V)).sum =
      ((es.filter (fun e =>
          decide (e.row = p.outStart + r) && decide (e.g = g))).map
        (fun e => e.w * V)).sum := by
  unfold offRow
  rw [map_filter_comm, List.map_map, List.filter_filter]
  show (List.map (fun e => e.w * V)
      (List.filter (fun e =>
        decide (idxIn e.g (offGlobals p es) = idxIn g (offGlobals p es)) &&
        (decide (e.row = p.outStart + r) && !p.localIn e.g)) es)).sum = _
  have hpred : ∀ e ∈ es,
      (decide (idxIn e.g (offGlobals p es) = idxIn g (offGlobals p es)) &&
        (decide (e.row = p.outStart + r) && !p.localIn e.g)) =
      (decide (e.row = p.outStart + r) && decide (e.g = g)) := by
    intro e he
    rw [Bool.eq_iff_iff]
    simp only [Bool.and_eq_true, decide_eq_true_eq, Bool.not_eq_true']
    constructor
    · rintro ⟨hidx, hrow, hnl⟩
      refine ⟨hrow, ?_⟩
      have hememb : e.g ∈ offGlobals p es := mem_offGlobals.mpr ⟨e, he, rfl, hnl⟩
      have h1 := getD_idxIn hememb
      have h2 := getD_idxIn hmem
      rw [hidx] at h1
      exact h1.symm.trans h2
    · rintro ⟨hrow, heg⟩
      have hnl : p.localIn e.g = false := by
        rw [heg]; exact offGlobals_not_local hmem
      exact ⟨by rw [heg], hrow, hnl⟩
  rw [List.filter_congr hpred]

lemma transRows_sum (p : Ctx) (es : List Edge) (hes : EdgesValid p es)
    (vin : List Scalar) (g k : Nat) :
    ((List.range p.N).map (fun r =>
      ((es.filter (fun e =>
          decide (e.row = p.outStart + r) && decide (e.g = g))).map
        (fun e => e.w * vin.getD (r * p.bsize + k) 0)).sum)).sum =
      matTransRow p.outStart p.bsize es vin g k := by
  have hstep : ∀ r ∈ List.range p.N,
      ((es.filter (fun e =>
          decide (e.row = p.outStart + r) && decide (e.g = g))).map
        (fun e => e.w * vin.getD (r * p.bsize + k) 0)).sum =
      (((es.filter (fun e => decide (e.g = g))).filter
          (fun e => decide (e.row - p.outStart = r))).map
        (fun e => e.w * vin.getD ((e.row - p.outStart) * p.bsize + k) 0)).sum := by
    intro r _
    rw [List.filter_filter]
    have hpred : ∀ e ∈ es,
        (decide (e.row = p.outStart + r) && decide (e.g = g)) =
        (decide (e.row - p.outStart = r) && decide (e.g = g)) := by
      intro e he
      have := hes e he
      rw [Bool.eq_iff_iff]
      simp only [Bool.and_eq_true, decide_eq_true_eq]
      omega
    rw [List.filter_congr hpred]
    refine congrArg List.sum (List.map_congr_left ?_)
    intro e hef
    have h2 := (List.mem_filter.mp hef).2
    simp only [Bool.and_eq_true, decide_eq_true_eq] at h2
    rw [h2.1]
  rw [List.map_congr_left hstep]
  exact sum_partition_range (es.filter (fun e => decide (e.g = g))) _
    (fun e => e.row - p.outStart) p.N
    (fun e he => by
      have := hes e (List.mem_filter.mp he).1
      simp only [Ctx.N]
      omega)

/-- Pointwise value of the assembled transpose apply: the locally accumulated
part plus the scatter-add contribution at global input index `g` together
equal entry `(g, k)` of the mathematical transpose product `Aᵗ·v`. -/
lemma transGlobal_eq (p : Ctx) (es : List Edge) (hes : EdgesValid p es)
    (vin : List Scalar) (g k : Nat) (hk : k < p.bsize) :
    (compile p es).transGlobal vin g k =
      matTransRow p.outStart p.bsize es vin g k := by
  unfold BVecInterp.transGlobal BVecInterp.multTranspose BVecInterp.extContrib
  show (if p.inStart ≤ g ∧ g < p.inEnd then
      ((List.range ((p.inEnd - p.inStart) * p.bsize)).map
        (fun j => transSum p.bsize ((List.range p.N).map (onRow p es)) vin j)).getD
        ((g - p.inStart) * p.bsize + k) 0
    else 0) +
    (if g ∈ offGlobals p es then
      ((List.range ((offGlobals p es).length * p.bsize)).map
        (fun j => transSum p.bsize ((List.range p.N).map (offRow p es)) vin j)).getD
        (idxIn g (offGlobals p es) * p.bsize + k) 0
    else 0) = matTransRow p.outStart p.bsize es vin g k
  by_cases hloc : p.inStart ≤ g ∧ g < p.inEnd
  · rw [if_pos hloc]
    have hnotmem : g ∉ offGlobals p es := by
      intro hmem
      have hfalse := offGlobals_not_local hmem
      have htrue : p.localIn g = true := by
        simp [Ctx.localIn, hloc.1, hloc.2]
      rw [htrue] at hfalse
      exact Bool.noConfusion hfalse
    rw [if_neg hnotmem, add_zero]
    have hj : (g - p.inStart) * p.bsize + k < (p.inEnd - p.inStart) * p.bsize :=
      mul_index_lt (by omega) hk
    rw [getD_range_map _ _ hj]
    rw [transSum_compiledRows p.bsize p.N (onRow p es) vin (g - p.inStart) k hk]
    rw [List.map_congr_left (fun r _ =>
      onRow_colFilter p es hloc.1 hloc.2 r (vin.getD (r * p.bsize + k) 0))]
    exact transRows_sum p es hes vin g k
  · rw [if_neg hloc]
    by_cases hmem : g ∈ offGlobals p es
    · rw [if_pos hmem, zero_add]
      have hj : idxIn g (offGlobals p es) * p.bsize + k <
          (offGlobals p es).length * p.bsize :=
        mul_index_lt (idxIn_lt_length hmem) hk
      rw [getD_range_map _ _ hj]
      rw [transSum_compiledRows p.bsize p.N (offRow p es) vin
        (idxIn g (offGlobals p es)) k hk]
      rw [List.map_congr_left (fun r _ =>
        offRow_colFilter p es hmem r (vin.getD (r * p.bsize + k) 0))]
      exact transRows_sum p es hes vin g k
    · rw [if_neg hmem, add_zero]
      unfold matTransRow
      have hnil : es.filter (fun e => decide (e.g = g)) = [] := by
        rw [List.filter_eq_nil_iff]
        intro e he
        simp only [decide_eq_true_eq]
        intro heg
        cases hl : p.localIn e.g with
        | false => exact hmem (mem_offGlobals.mpr ⟨e, he, heg, hl⟩)
        | true =>
          have hrange : p.inStart ≤ e.g ∧ e.g < p.inEnd := by
            simp only [Ctx.localIn, Bool.and_eq_true, decide_eq_true_eq] at hl
            exact hl
          exact hloc (heg ▸ hrange)
      rw [hnil]
      simp

/-! ## The adjoint property -/

lemma dot_mult_eq_center (p : Ctx) (es : List Edge) (hes : EdgesValid p es)
    (u v : List Scalar) :
    dotN (p.N * p.bsize) ((compile p es).mult u) v =
      (es.map (fun e => ((List.range p.bsize).map (fun k =>
        e.w * u.getD (e.g * p.bsize + k) 0 *
          v.getD ((e.row - p.outStart) * p.bsize + k) 0)).sum)).sum := by
  unfold dotN
  rw [sum_range_mulIdx p.N p.bsize _]
  have hinner : ∀ r ∈ List.range p.N,
      ((List.range p.bsize).map (fun k =>
        ((compile p es).mult u).getD (r * p.bsize + k) 0 *
          v.getD (r * p.bsize + k) 0)).sum =
      ((es.filter (fun e => decide (e.row - p.outStart = r))).map
        (fun e => ((List.range p.bsize).map (fun k =>
          e.w * u.getD (e.g * p.bsize + k) 0 *
            v.getD ((e.row - p.outStart) * p.bsize + k) 0)).sum)).sum := by
    intro r hrmem
    have hr : r < p.N := List.mem_range.mp hrmem
    have s1 : ∀ k ∈ List.range p.bsize,
        ((compile p es).mult u).getD (r * p.bsize + k) 0 *
          v.getD (r * p.bsize + k) 0 =
        ((es.filter (fun e => decide (e.row = p.outStart + r))).map
          (fun e => e.w * u.getD (e.g * p.bsize + k) 0 *
            v.getD ((e.row - p.outStart) * p.bsize + k) 0)).sum := by
      intro k hkmem
      have hk : k < p.bsize := List.mem_range.mp hkmem
      rw [mult_getD_eq p es u hr hk]
      unfold matVecRow
      rw [listSum_map_mul_right]
      refine congrArg List.sum (List.map_congr_left ?_)
      intro e hef
      dsimp only
      have h2 := (List.mem_filter.mp hef).2
      simp only [decide_eq_true_eq] at h2
      rw [h2, Nat.add_sub_cancel_left]
    rw [List.map_congr_left s1]
    rw [listSum_comm (List.range p.bsize)
      (es.filter (fun e => decide (e.row = p.outStart + r)))
      (fun k e => e.w * u.getD (e.g * p.bsize + k) 0 *
        v.getD ((e.row - p.outStart) * p.bsize + k) 0)]
    have hpred : ∀ e ∈ es,
        (decide (e.row = p.outStart + r)) =
        (decide (e.row - p.outStart = r)) := by
      intro e he
      have := hes e he
      rw [Bool.eq_iff_iff]
      simp only [decide_eq_true_eq]
      omega
    rw [List.filter_congr hpred]
  rw [List.map_congr_left hinner]
  exact sum_partition_range es _ (fun e => e.row - p.outStart) p.N
    (fun e he => by
      have := hes e he
      simp only [Ctx.N]
      omega)

lemma dotWithTrans_eq_center (p : Ctx) (es : List Edge) (hes : EdgesValid p es)
    (u v : List Scalar) (hb : 0 < p.bsize) :
    (compile p es).dotWithTrans u v =
      (es.map (fun e => ((List.range p.bsize).map (fun k =>
        u.getD (e.g * p.bsize + k) 0 *
          (e.w * v.getD ((e.row - p.outStart) * p.bsize + k) 0))).sum)).sum := by
  unfold BVecInterp.dotWithTrans
  show ((List.range (p.inGlobal * p.bsize)).map (fun i =>
      u.getD i 0 * (compile p es).transGlobal v (i / p.bsize) (i % p.bsize))).sum = _
  rw [sum_range_mulIdx p.inGlobal p.bsize _]
  have hinner : ∀ g ∈ List.range p.inGlobal,
      ((List.range p.bsize).map (fun k =>
        u.getD (g * p.bsize + k) 0 *
          (compile p es).transGlobal v ((g * p.bsize + k) / p.bsize)
            ((g * p.bsize + k) % p.bsize))).sum =
      ((es.filter (fun e => decide (e.g = g))).map
        (fun e => ((List.range p.bsize).map (fun k =>
          u.getD (e.g * p.bsize + k) 0 *
            (e.w * v.getD ((e.row - p.outStart) * p.bsize + k) 0))).sum)).sum := by
    intro g _
    have s1 : ∀ k ∈ List.range p.bsize,
        u.getD (g * p.bsize + k) 0 *
          (compile p es).transGlobal v ((g * p.bsize + k) / p.bsize)
            ((g * p.bsize + k) % p.bsize) =
        ((es.filter (fun e => decide (e.g = g))).map
          (fun e => u.getD (e.g * p.bsize + k) 0 *
            (e.w * v.getD ((e.row - p.outStart) * p.bsize + k) 0))).sum := by
      intro k hkmem
      have hk : k < p.bsize := List.mem_range.mp hkmem
      have hdiv : (g * p.bsize + k) / p.bsize = g := by
        rw [Nat.mul_comm, Nat.mul_add_div hb, Nat.div_eq_of_lt hk, Nat.add_zero]
      have hmod : (g * p.bsize + k) % p.bsize = k := by
        rw [Nat.mul_comm, Nat.mul_add_mod, Nat.mod_eq_of_lt hk]
      rw [hdiv, hmod, transGlobal_eq p es hes v g k hk]
      unfold matTransRow
      rw [listSum_map_mul_left]
      refine congrArg List.sum (List.map_congr_left ?_)
      intro e hef
      dsimp only
      have h2 := (List.mem_filter.mp hef).2
      simp only [decide_eq_true_eq] at h2
      rw [h2]
    rw [List.map_congr_left s1]
    rw [listSum_comm (List.range p.bsize)
      (es.filter (fun e => decide (e.g = g)))
      (fun k e => u.getD (e.g * p.bsize + k) 0 *
        (e.w * v.getD ((e.row - p.outStart) * p.bsize + k) 0))]
  rw [List.map_congr_left hinner]
  exact sum_partition_range es _ (fun e => e.g) p.inGlobal
    (fun e he => (hes e he).2.2)

/-- The forward and transpose applies are exact adjoints with respect to the
global dot product. -/
lemma adjoint_eq (p : Ctx) (es : List Edge) (hes : EdgesValid p es)
    (u v : List Scalar) :
    dotN (p.N * p.bsize) ((compile p es).mult u) v =
      (compile p es).dotWithTrans u v := by
  rcases Nat.eq_zero_or_pos p.bsize with hb | hb
  · unfold dotN BVecInterp.dotWithTrans
    show ((List.range (p.N * p.bsize)).map _).sum =
      ((List.range (p.inGlobal * p.bsize)).map _).sum
    rw [hb]
    simp
  · rw [dot_mult_eq_center p es hes u v,
      dotWithTrans_eq_center p es hes u v hb]
    refine congrArg List.sum (List.map_congr_left ?_)
    intro e _
    refine congrArg List.sum (List.map_congr_left ?_)
    intro k _
    ring

/-! ## The state machine: building, finalize, apply, and the error contract -/

/-- The two phases of the operator's lifetime: accumulating edges
(`Building`), or compiled (`Compiled`, after `finalize`). -/
inductive InterpState
| building (es : List Edge)
| compiled (c : BVecInterp)
deriving DecidableEq

/-- Modelled from the spec: `addInterp` on the state machine — valid only
pre-compilation and only for output rows inside the local output ownership
range; accumulation after `finalize` is a fatal precondition violation. -/
def addInterpS (p : Ctx) (st : InterpState) (vNum : Nat)
    (weights : List Scalar) (inNums : List Nat) : Except String InterpState :=
  match st with
  | .building es =>
    if p.outStart ≤ vNum ∧ vNum < p.outEnd then
      .ok (.building (addInterp es vNum weights inNums))
    else .error "addInterp: output row outside the local ownership range"
  | .compiled _ => .error "addInterp: operator already finalized"

/-- Modelled from the spec: `finalize` on the state machine — the one-time
transition to the compiled form; fatal if called a second time or if any
accumulated index lies outside either map's declared global range. -/
def finalizeS (p : Ctx) (st : InterpState) : Except String InterpState :=
  match st with
  | .building es =>
    if EdgesValid p es then .ok (.compiled (compile p es))
    else .error "finalize: accumulated index outside the declared global range"
  | .compiled _ => .error "finalize: called a second time"

/-- One borrowed-vector apply request, carrying the vector contents: the four
multiply variants of the interface. -/
inductive ApplyReq
| fwd (xin : List Scalar)
| fwdAdd (xin z : List Scalar)
| trans (vin : List Scalar)
| transAdd (vin z : List Scalar)

/-- Modelled from the spec: one apply call on the state machine.  Application
before `finalize` is a fatal precondition violation; on a compiled operator
the call returns the operator state it ran on together with the freshly
written output buffer. -/
def applyStep (st : InterpState) (rq : ApplyReq) :
    Except String (InterpState × List Scalar) :=
  match st with
  | .building _ => .error "apply: operator not finalized"
  | .compiled c =>
    .ok (.compiled c,
      match rq with
      | .fwd xin => c.mult xin
      | .fwdAdd xin z => c.multAdd xin z
      | .trans vin => c.multTranspose vin
      | .transAdd vin z => c.multTransposeAdd vin z)

/-- The operator state reached after a sequence of apply calls (a fatal
error leaves the state unchanged). -/
def applySeq (st : InterpState) : List ApplyReq → InterpState
  | [] => st
  | rq :: rqs =>
    match applyStep st rq with
    | .ok (st2, _) => applySeq st2 rqs
    | .error _ => st

/-- The output buffer written by one apply call. -/
def applyOut (st : InterpState) (rq : ApplyReq) : Except String (List Scalar) :=
  (applyStep st rq).map Prod.snd

/-- The compiled operator held in a state, if any. -/
def stateOpt : InterpState → Option BVecInterp
  | .building _ => none
  | .compiled c => some c

lemma applySeq_compiled (c : BVecInterp) (rqs : List ApplyReq) :
    applySeq (.compiled c) rqs = .compiled c := by
  induction rqs with
  | nil => rfl
  | cons rq rqs ih =>
    show applySeq (InterpState.compiled c) rqs = InterpState.compiled c
    exact ih

/-! ## Flattened compressed-row views of the compiled structure -/

/-- Concatenation of a list of lists. -/
def catLists {α : Type} : List (List α) → List α
  | [] => []
  | l :: ls => l ++ catLists ls

/-- The on-process row-pointer array (`rowp` in the header): entry `r` is the
number of on-process nonzeros in rows before `r`; length `N + 1`. -/
def BVecInterp.rowp (c : BVecInterp) : List Nat :=
  (List.range (c.N + 1)).map (fun r => ((c.onRows.take r).map List.length).sum)

/-- The on-process column-offset array (`cols` in the header). -/
def BVecInterp.cols (c : BVecInterp) : List Nat :=
  catLists (c.onRows.map (fun row => row.map Prod.fst))

/-- The on-process weight array (`weights` in the header). -/
def BVecInterp.weights (c : BVecInterp) : List Scalar :=
  catLists (c.onRows.map (fun row => row.map Prod.snd))

/-- The off-process row-pointer array (`ext_rowp` in the header). -/
def BVecInterp.ext_rowp (c : BVecInterp) : List Nat :=
  (List.range (c.N + 1)).map (fun r => ((c.offRows.take r).map List.length).sum)

/-- The off-process column-offset array (`ext_cols` in the header):
receive-buffer offsets. -/
def BVecInterp.ext_cols (c : BVecInterp) : List Nat :=
  catLists (c.offRows.map (fun row => row.map Prod.fst))

/-- The off-process weight array (`ext_weights` in the header). -/
def BVecInterp.ext_weights (c : BVecInterp) : List Scalar :=
  catLists (c.offRows.map (fun row => row.map Prod.snd))

/-! ## Order-independence machinery -/

lemma mem_insertSorted {a x : Nat} {l : List Nat} :
    a ∈ insertSorted x l ↔ a = x ∨ a ∈ l := by
  rw [(insertSorted_perm x l).mem_iff, List.mem_cons]

lemma sorted_insertSorted (x : Nat) {l : List Nat}
    (h : l.Sorted (· ≤ ·)) : (insertSorted x l).Sorted (· ≤ ·) := by
  induction l with
  | nil => simp [insertSorted]
  | cons y ys ih =>
    rw [List.sorted_cons] at h
    rw [insertSorted]
    by_cases hxy : x ≤ y
    · rw [if_pos hxy, List.sorted_cons]
      constructor
      · intro b hb
        rcases List.mem_cons.mp hb with rfl | hb
        · exact hxy
        · exact le_trans hxy (h.1 b hb)
      · rw [List.sorted_cons]; exact h
    · rw [if_neg hxy, List.sorted_cons]
      constructor
      · intro b hb
        rcases mem_insertSorted.mp hb with rfl | hb
        · omega
        · exact h.1 b hb
      · exact ih h.2

lemma sorted_sortNat (l : List Nat) : (sortNat l).Sorted (· ≤ ·) := by
  induction l with
  | nil => simp [sortNat]
  | cons x xs ih => exact sorted_insertSorted x ih

lemma offGlobals_perm_eq (p : Ctx) {es es' : List Edge} (h : es.Perm es') :
    offGlobals p es = offGlobals p es' := by
  apply List.eq_of_perm_of_sorted _ (sorted_sortNat _) (sorted_sortNat _)
  refine (List.perm_ext_iff_of_nodup (nodup_offGlobals p es)
    (nodup_offGlobals p es')).mpr ?_
  intro a
  rw [mem_offGlobals, mem_offGlobals]
  constructor
  · rintro ⟨e, he, rfl, hl⟩
    exact ⟨e, h.subset he, rfl, hl⟩
  · rintro ⟨e, he, rfl, hl⟩
    exact ⟨e, h.symm.subset he, rfl, hl⟩

lemma matVecRow_perm {es es' : List Edge} (h : es.Perm es')
    (outStart bsize : Nat) (xin : List Scalar) (r k : Nat) :
    matVecRow outStart bsize es xin r k =
      matVecRow outStart bsize es' xin r k :=
  ((h.filter _).map _).sum_eq

lemma matTransRow_perm {es es' : List Edge} (h : es.Perm es')
    (outStart bsize : Nat) (vin : List Scalar) (g k : Nat) :
    matTransRow outStart bsize es vin g k =
      matTransRow outStart bsize es' vin g k :=
  ((h.filter _).map _).sum_eq

lemma bsize_pos_of_lt {p : Ctx} {i : Nat} (hi : i < p.N * p.bsize) :
    0 < p.bsize := by
  rcases Nat.eq_zero_or_pos p.bsize with h0 | h0
  · rw [h0, Nat.mul_zero] at hi; omega
  · exact h0

lemma mult_eq_of_matVecRow_eq (p : Ctx) (es es' : List Edge)
    (xin : List Scalar)
    (h : ∀ r k, r < p.N → k < p.bsize →
      matVecRow p.outStart p.bsize es xin r k =
        matVecRow p.outStart p.bsize es' xin r k) :
    (compile p es).mult xin = (compile p es').mult xin := by
  apply List.ext_getElem
  · rw [mult_length, mult_length]; rfl
  · intro i h1 h2
    have hi : i < p.N * p.bsize := by
      have hl := mult_length (compile p es) xin
      rw [hl] at h1
      exact h1
    have hb : 0 < p.bsize := bsize_pos_of_lt hi
    have hr : i / p.bsize < p.N := (Nat.div_lt_iff_lt_mul hb).mpr hi
    have hk : i % p.bsize < p.bsize := Nat.mod_lt _ hb
    have hdm : i / p.bsize * p.bsize + i % p.bsize = i := by
      rw [Nat.mul_comm]; exact Nat.div_add_mod i p.bsize
    rw [← List.getD_eq_getElem _ 0 h1, ← List.getD_eq_getElem _ 0 h2, ← hdm,
      mult_getD_eq p es xin hr hk, mult_getD_eq p es' xin hr hk]
    exact h _ _ hr hk

lemma multAdd_eq_of_mult_eq (p : Ctx) (es es' : List Edge)
    (xin z : List Scalar)
    (hm : (compile p es).mult xin = (compile p es').mult xin) :
    (compile p es).multAdd xin z = (compile p es').multAdd xin z := by
  apply List.ext_getElem
  · rw [multAdd_length, multAdd_length]; rfl
  · intro i h1 h2
    have hi : i < p.N * p.bsize := by
      have hl := multAdd_length (compile p es) xin z
      rw [hl] at h1
      exact h1
    rw [← List.getD_eq_getElem _ 0 h1, ← List.getD_eq_getElem _ 0 h2,
      multAdd_getD _ _ _ hi, multAdd_getD _ _ _ hi, hm]

lemma onRow_perm (p : Ctx) {es es' : List Edge} (h : es.Perm es') (r : Nat) :
    (onRow p es r).Perm (onRow p es' r) := (h.filter _).map _

lemma offRow_perm (p : Ctx) {es es' : List Edge} (h : es.Perm es') (r : Nat) :
    (offRow p es r).Perm (offRow p es' r) := by
  unfold offRow
  rw [offGlobals_perm_eq p h]
  exact (h.filter _).map _

lemma transSum_rowwise_perm (bsize N : Nat)
    (rowFn rowFn' : Nat → List (Nat × Scalar))
    (hperm : ∀ r, (rowFn r).Perm (rowFn' r)) (vin : List Scalar) (j : Nat) :
    transSum bsize ((List.range N).map rowFn) vin j =
      transSum bsize ((List.range N).map rowFn') vin j := by
  unfold transSum
  simp only [List.length_map, List.length_range]
  congr 1
  apply List.map_congr_left
  intro r hr
  rw [getD_range_map _ _ (List.mem_range.mp hr),
    getD_range_map _ _ (List.mem_range.mp hr)]
  exact (((hperm r).filter _).map _).sum_eq

lemma mult_perm (p : Ctx) {es es' : List Edge} (h : es.Perm es')
    (xin : List Scalar) :
    (compile p es).mult xin = (compile p es').mult xin :=
  mult_eq_of_matVecRow_eq p es es' xin
    (fun r k _ _ => matVecRow_perm h p.outStart p.bsize xin r k)

lemma multTranspose_perm (p : Ctx) {es es' : List Edge} (h : es.Perm es')
    (vin : List Scalar) :
    (compile p es).multTranspose vin = (compile p es').multTranspose vin := by
  unfold BVecInterp.multTranspose
  show (List.range ((p.inEnd - p.inStart) * p.bsize)).map
      (fun j => transSum p.bsize ((List.range p.N).map (onRow p es)) vin j) =
    (List.range ((p.inEnd - p.inStart) * p.bsize)).map
      (fun j => transSum p.bsize ((List.range p.N).map (onRow p es')) vin j)
  apply List.map_congr_left
  intro j _
  exact transSum_rowwise_perm p.bsize p.N _ _ (onRow_perm p h) vin j

lemma multTransposeAdd_perm (p : Ctx) {es es' : List Edge} (h : es.Perm es')
    (vin z : List Scalar) :
    (compile p es).multTransposeAdd vin z =
      (compile p es').multTransposeAdd vin z := by
  unfold BVecInterp.multTransposeAdd
  show (List.range ((p.inEnd - p.inStart) * p.bsize)).map
      (fun j => z.getD j 0 +
        transSum p.bsize ((List.range p.N).map (onRow p es)) vin j) =
    (List.range ((p.inEnd - p.inStart) * p.bsize)).map
      (fun j => z.getD j 0 +
        transSum p.bsize ((List.range p.N).map (onRow p es')) vin j)
  apply List.map_congr_left
  intro j _
  rw [transSum_rowwise_perm p.bsize p.N _ _ (onRow_perm p h) vin j]

lemma extContrib_perm (p : Ctx) {es es' : List Edge} (h : es.Perm es')
    (vin : List Scalar) :
    (compile p es).extContrib vin = (compile p es').extContrib vin := by
  unfold BVecInterp.extContrib
  show (List.range ((offGlobals p es).length * p.bsize)).map
      (fun j => transSum p.bsize ((List.range p.N).map (offRow p es)) vin j) =
    (List.range ((offGlobals p es').length * p.bsize)).map
      (fun j => transSum p.bsize ((List.range p.N).map (offRow p es')) vin j)
  rw [← offGlobals_perm_eq p h]
  apply List.map_congr_left
  intro j _
  exact transSum_rowwise_perm p.bsize p.N _ _ (offRow_perm p h) vin j

/-! ## The spec's single-process scenario -/

/-- The single-process scenario map view: one local output row, six global
input indices all owned locally, block size 1. -/
def ctx1 : Ctx :=
  { inStart := 0, inEnd := 6, outStart := 0, outEnd := 1, inGlobal := 6,
    outGlobal := 1, bsize := 1 }

/-- The scenario edges: output row 0 references input indices 2 and 5, each
with weight 0.5. -/
def es1 : List Edge := [⟨0, 2, 1/2⟩, ⟨0, 5, 1/2⟩]

/-- The scenario input vector (0-based global indices 0..5). -/
def x1 : List Scalar := [1, 2, 3, 4, 5, 6]

/-- The scenario edges in the opposite accumulation order. -/
def es1swap : List Edge := [⟨0, 5, 1/2⟩, ⟨0, 2, 1/2⟩]

lemma list_eq_single {l : List Scalar} {a : Scalar} (hlen : l.length = 1)
    (hval : l.getD 0 0 = a) : l = [a] := by
  cases l with
  | nil => simp at hlen
  | cons x xs =>
    cases xs with
    | nil =>
      simp only [List.getD_cons_zero] at hval
      rw [hval]
    | cons y ys => simp at hlen

/-- Row 0 of the scenario forward apply: the values at 0-based global indices
2 and 5 of [1,2,3,4,5,6] are 3 and 6, so the result is
0.5 × 3 + 0.5 × 6 = 4.5. -/
lemma scenario_mult_val : ((compile ctx1 es1).mult x1).getD 0 0 = 9 / 2 := by
  have h := mult_getD_eq ctx1 es1 x1 (r := 0) (k := 0) (by decide) (by decide)
  have h2 : matVecRow ctx1.outStart ctx1.bsize es1 x1 0 0 = 9 / 2 := by
    norm_num [matVecRow, ctx1, es1, x1]
  exact h.trans h2

lemma scenario_multAdd_val :
    (compile ctx1 es1).multAdd x1 [10] = [29 / 2] := by
  apply list_eq_single
  · exact multAdd_length _ _ _
  · have hi : (0 : Nat) <
        (compile ctx1 es1).N * (compile ctx1 es1).bsize := by decide
    rw [multAdd_getD _ _ _ hi, scenario_mult_val]
    norm_num

/-! ## The claims -/

/-- C1 (amended): for every compiled operator and every distributed input
vector, the forward apply `mult` writes `out := A·x`, fully replacing all
`localOutputRowCount × blockSize` entries — the output has exactly
`N × bsize` entries and entry `(r, k)` is the sum over the edges of local
output row `r` of `weight × x[col · bsize + k]`, the column value being read
from the local slice or from the gathered receive buffer.  In the
single-process, blockSize-1 scenario with row-0 edges {(2, 0.5), (5, 0.5)}
and input [1,2,3,4,5,6], row 0 of the result is 0.5×3 + 0.5×6 = 4.5 (the
values at 0-based indices 2 and 5 are 3 and 6), not the 4.0 the spec
states. -/
theorem tacs_C1_forward_apply :
    (∀ (p : Ctx) (es : List Edge) (xin : List Scalar),
      ((compile p es).mult xin).length = p.N * p.bsize ∧
      ∀ r k, r < p.N → k < p.bsize →
        ((compile p es).mult xin).getD (r * p.bsize + k) 0 =
          matVecRow p.outStart p.bsize es xin r k) ∧
    ((compile ctx1 es1).mult x1).getD 0 0 = 9 / 2 := by
  constructor
  · intro p es xin
    exact ⟨mult_length _ _, fun r k hr hk => mult_getD_eq p es xin hr hk⟩
  · exact scenario_mult_val

/-- C1 counterexample: the spec's scenario expectation is false — on edges
{(2, 0.5), (5, 0.5)} and input [1,2,3,4,5,6] the forward apply yields 4.5 at
row 0, not 4.0. -/
theorem tacs_C1_counterexample :
    ((compile ctx1 es1).mult x1).getD 0 0 ≠ 4 := by
  rw [scenario_mult_val]
  norm_num

/-- C1 witness: the pointwise characterization instantiated at the scenario
operator, row 0, component 0. -/
theorem tacs_C1_witness :
    0 < ctx1.N ∧ 0 < ctx1.bsize ∧
    ((compile ctx1 es1).mult x1).getD (0 * ctx1.bsize + 0) 0 =
      matVecRow ctx1.outStart ctx1.bsize es1 x1 0 0 :=
  ⟨by decide, by decide,
    (tacs_C1_forward_apply.1 ctx1 es1 x1).2 0 0 (by decide) (by decide)⟩

/-- C2: for every compiled operator with valid accumulated edges, the
assembled transpose apply — local rows of `vin` scattering `weight × value`
to input index `col`, locally owned targets accumulated directly into the
local output and remotely owned targets delivered through the scatter-add
contributions — equals, at every global input index `g` and component `k`,
the mathematical transpose row `Σ_{edges with index g} weight ×
vin[(row - outStart) · bsize + k]`. -/
theorem tacs_C2_transpose_apply :
    ∀ (p : Ctx) (es : List Edge), EdgesValid p es →
    ∀ (vin : List Scalar) (g k : Nat), k < p.bsize →
    (compile p es).transGlobal vin g k =
      matTransRow p.outStart p.bsize es vin g k :=
  fun p es hes vin g k hk => transGlobal_eq p es hes vin g k hk

/-- C2 witness: the transpose characterization instantiated at the scenario
operator, global input index 2, component 0. -/
theorem tacs_C2_witness :
    EdgesValid ctx1 es1 ∧ 0 < ctx1.bsize ∧
    (compile ctx1 es1).transGlobal [1] 2 0 =
      matTransRow ctx1.outStart ctx1.bsize es1 [1] 2 0 :=
  ⟨by decide, by decide,
    tacs_C2_transpose_apply ctx1 es1 (by decide) [1] 2 0 (by decide)⟩

/-- C3: the forward and transpose applies are exact adjoints with respect to
the global dot product — for all compatible `u` (input partition) and `v`
(output partition), `dot(apply(u), v) = dot(u, applyTranspose(v))`, the
right-hand side taken against the assembled global transpose product. -/
theorem tacs_C3_adjoint :
    ∀ (p : Ctx) (es : List Edge), EdgesValid p es →
    ∀ (u v : List Scalar),
    dotN (p.N * p.bsize) ((compile p es).mult u) v =
      (compile p es).dotWithTrans u v :=
  fun p es hes u v => adjoint_eq p es hes u v

/-- C3 witness: the adjoint identity instantiated at the scenario operator
with `u` the scenario input and `v = [1]`. -/
theorem tacs_C3_witness :
    EdgesValid ctx1 es1 ∧
    dotN (ctx1.N * ctx1.bsize) ((compile ctx1 es1).mult x1) [1] =
      (compile ctx1 es1).dotWithTrans x1 [1] :=
  ⟨by decide, tacs_C3_adjoint ctx1 es1 (by decide) x1 [1]⟩

/-- C4 (amended): `multAdd` computes `out := A·x + add` — entry `(r, k)` is
the baseline `add` entry plus the same edge sum as the forward apply, with
the block-size expansion applied identically across components.  On the
scenario with `add = [10]` the result is exactly [14.5] (= 10 + 4.5), not
the [14.0] the spec states. -/
theorem tacs_C4_applyAdd :
    (∀ (p : Ctx) (es : List Edge) (xin z : List Scalar) (r k : Nat),
      r < p.N → k < p.bsize →
      ((compile p es).multAdd xin z).getD (r * p.bsize + k) 0 =
        z.getD (r * p.bsize + k) 0 +
          matVecRow p.outStart p.bsize es xin r k) ∧
    (compile ctx1 es1).multAdd x1 [10] = [29 / 2] := by
  constructor
  · intro p es xin z r k hr hk
    have hi : r * p.bsize + k <
        (compile p es).N * (compile p es).bsize := mul_index_lt hr hk
    rw [multAdd_getD (compile p es) xin z hi, mult_getD_eq p es xin hr hk]
  · exact scenario_multAdd_val

/-- C4 counterexample: with `add = [10]` the scenario `multAdd` yields
[14.5], not the spec's [14.0]. -/
theorem tacs_C4_counterexample :
    (compile ctx1 es1).multAdd x1 [10] ≠ [14] := by
  rw [scenario_multAdd_val]
  intro h
  simp only [List.cons.injEq, and_true] at h
  norm_num at h

/-- C4 witness: the pointwise `multAdd` characterization instantiated at the
scenario operator, row 0, component 0, baseline [10]. -/
theorem tacs_C4_witness :
    0 < ctx1.N ∧ 0 < ctx1.bsize ∧
    ((compile ctx1 es1).multAdd x1 [10]).getD (0 * ctx1.bsize + 0) 0 =
      ([10] : List Scalar).getD (0 * ctx1.bsize + 0) 0 +
        matVecRow ctx1.outStart ctx1.bsize es1 x1 0 0 :=
  ⟨by decide, by decide,
    tacs_C4_applyAdd.1 ctx1 es1 x1 [10] 0 0 (by decide) (by decide)⟩

/-- C5: duplicate edges accumulate — adding the pair `(r, g, w)` twice
through the accumulation entry point before compilation produces, after
compilation, the same forward-apply behavior as adding the single edge
`(r, g, 2w)`. -/
theorem tacs_C5_duplicate_edges_accumulate :
    ∀ (p : Ctx) (es0 : List Edge) (r g : Nat) (w : Scalar)
      (xin : List Scalar),
    (compile p (addInterp (addInterp es0 r [w] [g]) r [w] [g])).mult xin =
      (compile p (addInterp es0 r [2 * w] [g])).mult xin := by
  intro p es0 r g w xin
  apply mult_eq_of_matVecRow_eq
  intro r' k _ _
  show matVecRow p.outStart p.bsize ((es0 ++ [⟨r, g, w⟩]) ++ [⟨r, g, w⟩])
      xin r' k =
    matVecRow p.outStart p.bsize (es0 ++ [⟨r, g, 2 * w⟩]) xin r' k
  unfold matVecRow
  simp only [List.filter_append, List.map_append, List.sum_append]
  by_cases hrow : r = p.outStart + r'
  · simp [List.filter_cons, hrow]
    ring
  · simp [List.filter_cons, hrow]

/-- C6: compilation order-independence — compiling any permutation of the
same accumulated edge multiset yields an operator whose four apply variants
(and scatter-add contribution buffer) produce identical numeric results. -/
theorem tacs_C6_order_independence :
    ∀ (p : Ctx) (es es' : List Edge), es.Perm es' →
    (∀ xin, (compile p es).mult xin = (compile p es').mult xin) ∧
    (∀ xin z, (compile p es).multAdd xin z = (compile p es').multAdd xin z) ∧
    (∀ vin, (compile p es).multTranspose vin =
        (compile p es').multTranspose vin ∧
      (compile p es).extContrib vin = (compile p es').extContrib vin) ∧
    (∀ vin z, (compile p es).multTransposeAdd vin z =
      (compile p es').multTransposeAdd vin z) := by
  intro p es es' h
  exact ⟨fun xin => mult_perm p h xin,
    fun xin z => multAdd_eq_of_mult_eq p es es' xin z (mult_perm p h xin),
    fun vin => ⟨multTranspose_perm p h vin, extContrib_perm p h vin⟩,
    fun vin z => multTransposeAdd_perm p h vin z⟩

/-- C6 witness: the scenario edges accumulated in the opposite order compile
to an operator with the same forward-apply result. -/
theorem tacs_C6_witness :
    es1swap.Perm es1 ∧
    (compile ctx1 es1swap).mult x1 = (compile ctx1 es1).mult x1 :=
  ⟨List.Perm.swap _ _ _,
    (tacs_C6_order_independence ctx1 es1swap es1 (List.Perm.swap _ _ _)).1 x1⟩

/-- C7: the state-machine error contract — accumulation after `finalize` is
a fatal error, application of any multiply variant before `finalize` is a
fatal error, `finalize` called a second time is a fatal error, and
`finalize` on edges with an index outside either map's declared global range
is a fatal error; in each case the only possible outcome is a locally
detected fatal error. -/
theorem tacs_C7_error_contract :
    ∀ (p : Ctx),
    (∀ (c : BVecInterp) (vNum : Nat) (ws : List Scalar) (gs : List Nat),
      ∃ m, addInterpS p (.compiled c) vNum ws gs = .error m) ∧
    (∀ (es : List Edge) (rq : ApplyReq),
      ∃ m, applyStep (.building es) rq = .error m) ∧
    (∀ c : BVecInterp, ∃ m, finalizeS p (.compiled c) = .error m) ∧
    (∀ es : List Edge, ¬ EdgesValid p es →
      ∃ m, finalizeS p (.building es) = .error m) := by
  intro p
  refine ⟨fun c vNum ws gs => ⟨"addInterp: operator already finalized", rfl⟩,
    fun es rq => ⟨"apply: operator not finalized", rfl⟩,
    fun c => ⟨"finalize: called a second time", rfl⟩,
    fun es hne =>
      ⟨"finalize: accumulated index outside the declared global range", ?_⟩⟩
  show (if EdgesValid p es then
      Except.ok (InterpState.compiled (compile p es))
    else Except.error
      "finalize: accumulated index outside the declared global range") =
    Except.error "finalize: accumulated index outside the declared global range"
  rw [if_neg hne]

/-- C7 witness: the error contract instantiated on the scenario — an
out-of-range accumulated index (global input index 99 of 6), accumulation
after `finalize`, apply before `finalize`, and a second `finalize`. -/
theorem tacs_C7_witness :
    (¬ EdgesValid ctx1 [⟨0, 99, 1⟩]) ∧
    (∃ m, finalizeS ctx1 (.building [⟨0, 99, 1⟩]) = .error m) ∧
    (∃ m, addInterpS ctx1 (.compiled (compile ctx1 es1)) 0 [1] [0] =
      .error m) ∧
    (∃ m, applyStep (.building es1) (.fwd x1) = .error m) ∧
    (∃ m, finalizeS ctx1 (.compiled (compile ctx1 es1)) = .error m) :=
  ⟨by decide,
    (tacs_C7_error_contract ctx1).2.2.2 _ (by decide),
    (tacs_C7_error_contract ctx1).1 _ 0 [1] [0],
    (tacs_C7_error_contract ctx1).2.1 es1 (.fwd x1),
    (tacs_C7_error_contract ctx1).2.2.1 _⟩

/-- C8: post-compilation immutability — after any sequence of apply calls,
in any order and with any repetitions, the operator state is still exactly
the compiled operator it started as, so its row pointers, column offsets,
weights and receive-buffer index sets (both on- and off-process) are
unchanged. -/
theorem tacs_C8_post_compile_immutability :
    ∀ (c : BVecInterp) (rqs : List ApplyReq),
    applySeq (.compiled c) rqs = .compiled c ∧
    (stateOpt (applySeq (.compiled c) rqs)).map BVecInterp.rowp =
      some c.rowp ∧
    (stateOpt (applySeq (.compiled c) rqs)).map BVecInterp.cols =
      some c.cols ∧
    (stateOpt (applySeq (.compiled c) rqs)).map BVecInterp.weights =
      some c.weights ∧
    (stateOpt (applySeq (.compiled c) rqs)).map BVecInterp.ext_rowp =
      some c.ext_rowp ∧
    (stateOpt (applySeq (.compiled c) rqs)).map BVecInterp.ext_cols =
      some c.ext_cols ∧
    (stateOpt (applySeq (.compiled c) rqs)).map BVecInterp.ext_weights =
      some c.ext_weights ∧
    (stateOpt (applySeq (.compiled c) rqs)).map BVecInterp.extIndices =
      some c.extIndices := by
  intro c rqs
  rw [applySeq_compiled]
  exact ⟨rfl, rfl, rfl, rfl, rfl, rfl, rfl, rfl⟩

/-- C9: the plain forward apply coincides with the additive variant at the
all-zeros baseline of the local output partition's size. -/
theorem tacs_C9_mult_eq_multAdd_zero :
    ∀ (c : BVecInterp) (xin : List Scalar),
    c.mult xin = c.multAdd xin (List.replicate (c.N * c.bsize) 0) := by
  intro c xin
  unfold BVecInterp.mult BVecInterp.multAdd
  apply List.map_congr_left
  intro i _
  rw [getD_replicate_zero]
  ring

/-- C10: determinism of application — for a fixed compiled operator, an
apply call with the same request (the same variant with elementwise-equal
borrowed vector contents) writes the same output regardless of the call
history that preceded it. -/
theorem tacs_C10_apply_deterministic :
    ∀ (c : BVecInterp) (h1 h2 : List ApplyReq) (rq : ApplyReq),
    applyOut (applySeq (.compiled c) h1) rq =
      applyOut (applySeq (.compiled c) h2) rq := by
  intro c h1 h2 rq
  rw [applySeq_compiled, applySeq_compiled]
